import Mathlib

/-!
Verification of the GSEE solar-geometry / irradiance-decomposition engine.

This file gives a shallow embedding of the core computational functions of the
gsee package (`gsee/trigon.py`, `gsee/pv.py`, `gsee/brl_model.py`,
`gsee/climatedata_interface/pre_gsee_processing.py`) and proves or refutes a
set of claims about them.

Modelling conventions:
* Floating-point series values are modelled by `FV`, exact rationals extended
  with a NaN element.  Arithmetic propagates NaN exactly as IEEE/numpy does for
  finite operands; division by zero is collapsed to NaN (numpy would produce
  an infinity for a nonzero numerator, but no claim below depends on the
  distinction, and every theorem that divides has a nonzero divisor or a NaN
  conclusion that matches numpy element-for-element).
* Calls into the external astronomy / math libraries (`ephem` sun positions,
  `np.cos`, `np.log`, `math.e ** x`, ...) are modelled as oracle parameters:
  `ℚ`-valued functions supplied to each embedded function, constrained by
  hypotheses (such as `|cos| ≤ 1` or `cos 0 = 1`) only where a theorem needs
  a genuine property of the library function.
* pandas/numpy whole-series operations are embedded element-wise (they are all
  element-wise in the code paths treated here); `.fillna`, `.clip`, resampled
  daily means and python `min`/truthiness are modelled with their exact
  NaN-handling behaviour.
-/

/-- A floating-point cell of a pandas Series: either NaN or a finite value,
modelled as an exact rational. -/
inductive FV where
  | nan : FV
  | fin : ℚ → FV
deriving DecidableEq

/-- Addition with NaN propagation. -/
def fadd : FV → FV → FV
  | FV.fin a, FV.fin b => FV.fin (a + b)
  | _, _ => FV.nan

/-- Subtraction with NaN propagation. -/
def fsub : FV → FV → FV
  | FV.fin a, FV.fin b => FV.fin (a - b)
  | _, _ => FV.nan

/-- Multiplication with NaN propagation (note `0 * NaN = NaN`, as in IEEE). -/
def fmul : FV → FV → FV
  | FV.fin a, FV.fin b => FV.fin (a * b)
  | _, _ => FV.nan

/-- Division with NaN propagation; division by zero is collapsed to NaN
(see the modelling conventions above). -/
def fdiv : FV → FV → FV
  | FV.fin a, FV.fin b => if b = 0 then FV.nan else FV.fin (a / b)
  | _, _ => FV.nan

/-- pandas `.fillna(z)`. -/
def ffillna (z : ℚ) : FV → FV
  | FV.nan => FV.fin z
  | FV.fin a => FV.fin a

/-- pandas `.clip(lower=lo)`; NaN entries are left as NaN. -/
def fclipLower (lo : ℚ) : FV → FV
  | FV.nan => FV.nan
  | FV.fin a => FV.fin (max a lo)

/-- pandas `.clip(upper=hi)`; NaN entries are left as NaN. -/
def fclipUpper (hi : ℚ) : FV → FV
  | FV.nan => FV.nan
  | FV.fin a => FV.fin (min a hi)

/-- Lift a (total, library-oracle) real function through NaN, as numpy ufuncs
propagate NaN. -/
def FV.map (f : ℚ → ℚ) : FV → FV
  | FV.nan => FV.nan
  | FV.fin a => FV.fin (f a)

/-- Lift a partial (NaN-producing, e.g. `np.sqrt`, `np.arccos`, `np.log`)
library oracle through NaN. -/
def FV.bind (f : ℚ → FV) : FV → FV
  | FV.nan => FV.nan
  | FV.fin a => f a

/-- Python builtin `min a b`: returns `b` if `b < a` else `a` (this is how a
NaN argument behaves under python comparison, where every comparison with NaN
is false). -/
def pymin (a b : FV) : FV :=
  match a, b with
  | FV.fin x, FV.fin y => if y < x then FV.fin y else FV.fin x
  | _, _ => a

/-- NaN test, `np.isnan`. -/
def isNan : FV → Bool
  | FV.nan => true
  | FV.fin _ => false

/-- Boolean test: the cell is finite and non-negative. -/
def fvNonnegB : FV → Bool
  | FV.nan => false
  | FV.fin q => decide (0 ≤ q)

/-- Boolean test: the cell is finite and at most `c`. -/
def fvLeB (x : FV) (c : ℚ) : Bool :=
  match x with
  | FV.nan => false
  | FV.fin q => decide (q ≤ c)

/-- Boolean test: the cell is finite (not NaN). -/
def isFinB : FV → Bool
  | FV.nan => false
  | FV.fin _ => true

/-- The finite entries of a list of cells (used by skip-NaN aggregations). -/
def finsOf (l : List FV) : List ℚ :=
  l.filterMap (fun x => match x with | FV.nan => none | FV.fin q => some q)

/-- pandas `.mean()` over a Series: NaN entries are skipped; the mean of an
all-NaN (or empty) series is NaN. -/
def fmean (l : List FV) : FV :=
  if finsOf l = [] then FV.nan
  else FV.fin ((finsOf l).sum / (finsOf l).length)

/-- `np.mean` over a plain float list (no NaN entries involved). -/
def npMeanQ (l : List ℚ) : ℚ := l.sum / l.length

/-!
## Sun geometry (`gsee/trigon.py`, `sun_angles`, instantaneous branch)

The `ephem` observer/sun computations are modelled by `SunOracle`: the sun's
altitude and azimuth as functions of the evaluation instant, measured in
(rational) minutes since the midnight of the day being processed.  Sunrise and
sunset times (from `sun_rise_set_times`, themselves `ephem` results) are
inputs: per-day optional clock times, `None` meaning polar day/night.
-/

/-- A clock time within a day (a `datetime.time`-like value): hour, minute and
a rational second field. -/
structure ClockTime where
  hour : ℕ
  minute : ℕ
  second : ℚ
deriving DecidableEq

/-- Minutes since midnight of a clock time. -/
def ClockTime.toMinutes (t : ClockTime) : ℚ :=
  t.hour * 60 + t.minute + t.second / 60

/-- The external `ephem` sun-position library, as an oracle: apparent sun
altitude and azimuth (radians) at an evaluation instant given in minutes since
midnight of the current day. -/
structure SunOracle where
  altAt : ℚ → ℚ
  azAt : ℚ → ℚ

/-- One row of the DataFrame returned by `sun_angles` (instantaneous mode):
`sun_alt` (already clipped to `≥ 0` by the final
`df["sun_alt"].clip(lower=0)`), `sun_azimuth` and `duration`.  The
`sun_zenith` column (`π/2 - sun_alt`, computed before the clip) is not needed
by any claim about this function and is omitted here. -/
structure SunAngleRec where
  sunAlt : ℚ
  sunAzimuth : ℚ
  duration : ℚ
deriving DecidableEq

/-- Whether an optional rise/set time falls in clock hour `h`
(`rise_time is not None and item.hour == rise_time.hour`). -/
def isHourOf (t : Option ClockTime) (h : ℕ) : Bool :=
  match t with
  | none => false
  | some c => c.hour == h

/-- The body of the `sun_angles` per-timestamp loop, instantaneous branch
(`gsee/trigon.py` lines 114-175), for the hourly timestamp with clock hour
`h` of a day whose sunrise/sunset times are `riseT`/`setT`:

* sunrise hour: `duration = 60 - rise.minute - rise.second/60`, angles
  evaluated at `rise_time + duration/2` minutes;
* sunset hour: `duration = set.minute + set.second/60`, angles evaluated at
  `item + duration/2` minutes;
* other hours: `duration = 60`, angles evaluated at `item + 30` minutes, and
  if the altitude is `< 0` then altitude, azimuth and duration are all zeroed.

The final `clip(lower=0)` on the altitude column is applied in each branch. -/
def sunAngleHour (O : SunOracle) (riseT setT : Option ClockTime) (h : ℕ) :
    SunAngleRec :=
  if isHourOf riseT h then
    let rt := riseT.getD ⟨0, 0, 0⟩
    let duration : ℚ := 60 - rt.minute - rt.second / 60
    let ep := rt.toMinutes + duration / 2
    ⟨max (O.altAt ep) 0, O.azAt ep, duration⟩
  else if isHourOf setT h then
    let st := setT.getD ⟨0, 0, 0⟩
    let duration : ℚ := st.minute + st.second / 60
    let ep := (h : ℚ) * 60 + duration / 2
    ⟨max (O.altAt ep) 0, O.azAt ep, duration⟩
  else
    let ep := (h : ℚ) * 60 + 30
    let alt := O.altAt ep
    if alt < 0 then ⟨0, 0, 0⟩
    else ⟨max alt 0, O.azAt ep, 60⟩

/-- A timestamp of the input datetime index: the naive UTC day ordinal and
clock hour actually used by the computation, plus whatever timezone
information the index entry carries (`None` for a naive index).  Per the
`sun_angles` docstring the timestamps are "Handled as if they were UTC not
matter what timezone info they may supply", so the computation reads only
`day` and `hour`. -/
structure TZTimestamp where
  day : ℕ
  hour : ℕ
  tz : Option ℤ
deriving DecidableEq

/-- The `sun_angles` loop over a datetime index (instantaneous mode), with the
per-day rise/set table `rsTable` (indexed by day ordinal, as
`rise_set_times.loc[item.date()]`). -/
def sunAnglesSeries (O : SunOracle) (rsTable : ℕ → Option ClockTime × Option ClockTime)
    (idx : List TZTimestamp) : List SunAngleRec :=
  idx.map (fun t => sunAngleHour O (rsTable t.day).1 (rsTable t.day).2 t.hour)

/-!
## Aperture irradiance (`gsee/trigon.py`, `aperture_irradiance`)

The numpy trigonometric library functions are oracles collected in
`TrigOracle`.  `np.arccos`, `np.sqrt` and `np.log` can produce NaN on
out-of-domain arguments, so they are `ℚ → FV`; the others are total.
`pi` is the (rational) value of `np.pi`.  `log` and `exp` are carried in the
same record for the panel and BRL models.

`aperture_irradiance` is embedded with the solar-angles DataFrame passed in
(the `angles` parameter of the python function); each row is an `AngleRec`.
All series operations in the function are element-wise, so the embedding
works on per-row records combined with `List.zipWith`/`List.map`.
-/

/-- External math-library oracle (numpy ufuncs, `math.e ** x`, `np.pi`). -/
structure TrigOracle where
  cos : ℚ → ℚ
  sin : ℚ → ℚ
  tan : ℚ → ℚ
  arctan : ℚ → ℚ
  arccos : ℚ → FV
  sqrt : ℚ → FV
  log : ℚ → FV
  exp : ℚ → ℚ
  pi : ℚ

/-- `math.radians` (used by `run_model` before calling
`aperture_irradiance`). -/
def radiansQ (O : TrigOracle) (deg : ℚ) : ℚ := deg * O.pi / 180

/-- One row of the solar-angles DataFrame handed to `aperture_irradiance`:
`sun_alt`, `sun_azimuth`, `duration`, `sun_zenith` (instantaneous mode) and
`timestepmean_one_over_cos_sun_zenith` (cumulative mode). -/
structure AngleRec where
  sunAlt : FV
  sunAzimuth : FV
  duration : FV
  sunZenith : FV
  oneOverCos : FV
deriving DecidableEq

/-- `_incidence_fixed`: `arccos(sin(sun_alt)*cos(tilt) +
cos(sun_alt)*sin(tilt)*cos(azimuth - sun_azimuth))`. -/
def incidenceFixed (O : TrigOracle) (sunAlt : FV) (tilt azimuth : ℚ)
    (sunAz : FV) : FV :=
  FV.bind O.arccos
    (fadd (fmul (FV.map O.sin sunAlt) (FV.fin (O.cos tilt)))
      (fmul (fmul (FV.map O.cos sunAlt) (FV.fin (O.sin tilt)))
        (FV.map O.cos (fsub (FV.fin azimuth) sunAz))))

/-- `_incidence_single_tracking`, with its `tilt == 0` special case. -/
def incidenceSingleTracking (O : TrigOracle) (sunAlt : FV) (tilt azimuth : ℚ)
    (sunAz : FV) : FV :=
  if tilt = 0 then
    FV.bind O.arccos (FV.bind O.sqrt
      (fsub (FV.fin 1)
        (fmul (fmul (FV.map O.cos sunAlt) (FV.map O.cos sunAlt))
          (fmul (FV.map O.cos (fsub sunAz (FV.fin azimuth)))
            (FV.map O.cos (fsub sunAz (FV.fin azimuth)))))))
  else
    let inner := fsub (FV.map O.cos (fadd sunAlt (FV.fin tilt)))
      (fmul (fmul (FV.fin (O.cos tilt)) (FV.map O.cos sunAlt))
        (fsub (FV.fin 1) (FV.map O.cos (fsub sunAz (FV.fin azimuth)))))
    FV.bind O.arccos (FV.bind O.sqrt (fsub (FV.fin 1) (fmul inner inner)))

/-- `_tilt_single_tracking`, with its `tilt == 0` special case. -/
def tiltSingleTracking (O : TrigOracle) (sunAlt : FV) (tilt azimuth : ℚ)
    (sunAz : FV) : FV :=
  if tilt = 0 then
    FV.map O.arctan
      (fdiv (FV.map O.sin (fsub sunAz (FV.fin azimuth))) (FV.map O.tan sunAlt))
  else
    FV.map O.arctan
      (fdiv (fmul (FV.map O.cos sunAlt) (FV.map O.sin (fsub sunAz (FV.fin azimuth))))
        (fadd (FV.map O.sin (fsub sunAlt (FV.fin tilt)))
          (fmul (fmul (FV.fin (O.sin tilt)) (FV.map O.cos sunAlt))
            (fsub (FV.fin 1) (FV.map O.cos (fsub sunAz (FV.fin azimuth)))))))

/-- The aperture geometry produced by step 3 of `aperture_irradiance`:
incidence angle, panel tilt and panel azimuth (the latter is reassigned to the
sun azimuth by the `tracking == 2` branch and left at the input azimuth
otherwise). -/
structure PanelGeom where
  incidence : FV
  panelTilt : FV
  panelAzimuth : FV
deriving DecidableEq

/-- Step 3 of `aperture_irradiance` for one angle row:
* `tracking == 0`: `_incidence_fixed`, `panel_tilt = tilt`;
* `tracking == 1`: `_incidence_single_tracking` / `_tilt_single_tracking`;
* `tracking == 2`: `incidence = 0`, `panel_tilt = π/2 - sun_alt`,
  `azimuth = sun_azimuth`.
Any other tracking value raises in `aperture_irradiance` before this function
is reached, so the catch-all arm (which returns NaNs) is unreachable there. -/
def trackingGeomElem (O : TrigOracle) (tilt azimuth : ℚ) (tracking : ℤ)
    (a : AngleRec) : PanelGeom :=
  if tracking = 0 then
    ⟨incidenceFixed O a.sunAlt tilt azimuth a.sunAzimuth, FV.fin tilt, FV.fin azimuth⟩
  else if tracking = 1 then
    ⟨incidenceSingleTracking O a.sunAlt tilt azimuth a.sunAzimuth,
      tiltSingleTracking O a.sunAlt tilt azimuth a.sunAzimuth, FV.fin azimuth⟩
  else if tracking = 2 then
    ⟨FV.fin 0, fsub (FV.fin (O.pi / 2)) a.sunAlt, a.sunAzimuth⟩
  else
    ⟨FV.nan, FV.nan, FV.nan⟩

/-- Step 2 of `aperture_irradiance`, per element: the direct normal
irradiance.  Instantaneous: `direct * (duration/60) / cos(sun_zenith)`;
cumulative: `direct * timestepmean_one_over_cos_sun_zenith`. -/
def dniElem (O : TrigOracle) (cumulative : Bool) (d : FV) (a : AngleRec) : FV :=
  if cumulative then fmul d a.oneOverCos
  else fdiv (fmul d (fdiv a.duration (FV.fin 60))) (FV.map O.cos a.sunZenith)

/-- Step 4, direct component, per element:
`(dni * cos(incidence)).fillna(0).clip(lower=0)`. -/
def planeDirectElem (O : TrigOracle) (dni : FV) (g : PanelGeom) : FV :=
  fclipLower 0 (ffillna 0 (fmul dni (FV.map O.cos g.incidence)))

/-- Step 4, diffuse component, per element:
`(diffuse * (1+cos(panel_tilt))/2
  + albedo * (direct+diffuse) * (1-cos(panel_tilt))/2).fillna(0)`
(note: no `.clip` is applied to this component in the code). -/
def planeDiffuseElem (O : TrigOracle) (d f : FV) (albedo : ℚ) (g : PanelGeom) : FV :=
  ffillna 0
    (fadd (fmul f (fdiv (fadd (FV.fin 1) (FV.map O.cos g.panelTilt)) (FV.fin 2)))
      (fmul (fmul (FV.fin albedo) (fadd d f))
        (fdiv (fsub (FV.fin 1) (FV.map O.cos g.panelTilt)) (FV.fin 2))))

/-- Return value of `aperture_irradiance`: a bare DNI series when
`dni_only`, else the DataFrame of plane-of-array direct and diffuse series. -/
inductive ApertureOut where
  | dniSeries (l : List FV)
  | planes (direct diffuse : List FV)
deriving DecidableEq

/-- `aperture_irradiance` (`gsee/trigon.py` lines 252-350), with the solar
angles passed in (`angles` argument), following the code's control flow:

0. southern-hemisphere azimuth correction (`azimuth += π` when `lat < 0`);
2. DNI computation (instantaneous or cumulative);
   the function returns here, without any tracking-mode validation, when
   `dni_only` is set;
3. incidence/panel geometry, or `ValueError` for a tracking mode outside
   `{0, 1, 2}` — note this raise happens after the DNI computation;
4. plane-of-array direct (fillna + clip) and diffuse (fillna only) series. -/
def apertureIrradiance (O : TrigOracle) (direct diffuse : List FV)
    (lat tilt azimuth : ℚ) (tracking : ℤ) (albedo : ℚ) (dniOnly : Bool)
    (cumulative : Bool) (angles : List AngleRec) : Except String ApertureOut :=
  let az := if lat < 0 then azimuth + O.pi else azimuth
  let dni := List.zipWith (dniElem O cumulative) direct angles
  if dniOnly then Except.ok (ApertureOut.dniSeries dni)
  else if tracking = 0 ∨ tracking = 1 ∨ tracking = 2 then
    let geoms := angles.map (trackingGeomElem O tilt az tracking)
    let pdirect := List.zipWith (planeDirectElem O) dni geoms
    let pdiffuse := List.zipWith
      (fun (p : FV × FV) g => planeDiffuseElem O p.1 p.2 albedo g)
      (direct.zip diffuse) geoms
    Except.ok (ApertureOut.planes pdirect pdiffuse)
  else
    Except.error ("Invalid setting for tracking: " ++ toString tracking)

/-!
## Panel / inverter power model (`gsee/pv.py`)
-/

/-- Huld-model coefficient set of one panel technology subclass. -/
structure HuldK where
  k1 : ℚ
  k2 : ℚ
  k3 : ℚ
  k4 : ℚ
  k5 : ℚ
  k6 : ℚ
deriving DecidableEq

/-- `HuldCSiPanel` coefficients. -/
def csiK : HuldK := ⟨-0.017162, -0.040289, -0.004681, 0.000148, 0.000169, 0.000005⟩

/-- `HuldCISPanel` coefficients. -/
def cisK : HuldK := ⟨-0.005521, -0.038492, -0.003701, -0.000899, -0.001248, 0.000001⟩

/-- `HuldCdTePanel` coefficients. -/
def cdteK : HuldK := ⟨-0.103251, -0.040446, -0.001667, -0.002075, -0.001445, -0.000023⟩

/-- The `_PANEL_TYPES` dict; an unknown key raises `KeyError` in
`run_model`. -/
def panelTypes (technology : String) : Option HuldK :=
  if technology = "csi" then some csiK
  else if technology = "cis" then some cisK
  else if technology = "cdte" then some cdteK
  else none

/-- `HuldPanel.panel_relative_efficiency` per element, with the default
temperature coefficients `c_temp_amb = 1`, `c_temp_irrad = 0.035`:
`G_ = irradiance/1000`, `T_ = tamb + 0.035*irradiance - 25`,
`eff = 1 + k1 ln G_ + k2 (ln G_)^2 + T_ (k3 + k4 ln G_ + k5 (ln G_)^2)
 + k6 T_^2`, then `eff.fillna(0)` and `eff[eff < 0] = 0`.
`np.log` of a non-positive `G_` yields NaN or -inf, which the oracle hypothesis
`O.log q = NaN for q ≤ 0` captures (a -inf log also drives `eff` to NaN via
the opposite-signed `k` terms, hence to 0 after fillna, matching this
model).
`huldRelEffRaw` is the polynomial before the fillna/floor. -/
def huldRelEffRaw (k : HuldK) (lnG T : FV) : FV :=
  fadd
    (fadd
      (fadd (fadd (FV.fin 1) (fmul (FV.fin k.k1) lnG))
        (fmul (FV.fin k.k2) (fmul lnG lnG)))
      (fmul T (fadd (fadd (FV.fin k.k3) (fmul (FV.fin k.k4) lnG))
        (fmul (FV.fin k.k5) (fmul lnG lnG)))))
    (fmul (FV.fin k.k6) (fmul T T))

def huldRelEff (O : TrigOracle) (k : HuldK) (irr tamb : FV) : FV :=
  fclipLower 0 (ffillna 0 (huldRelEffRaw k
    (FV.bind O.log (fdiv irr (FV.fin 1000)))
    (fsub (fadd (fmul (FV.fin 1) tamb) (fmul (FV.fin 0.035) irr)) (FV.fin 25))))

/-- `PVPanel.panel_power` per element, as instantiated by `run_model`:
`irradiance * panel_aperture * relative_efficiency * panel_ref_efficiency`
with `panel_ref_efficiency = 0.1` and
`panel_aperture = capacity * 0.001 / 0.1`. -/
def powerElem (O : TrigOracle) (k : HuldK) (capacity : ℚ) (irr tamb : FV) : FV :=
  fmul (fmul (fmul irr (FV.fin (capacity * (0.001 / 0.1)))) (huldRelEff O k irr tamb))
    (FV.fin 0.1)

/-- `Inverter.ac_output` with the constructor defaults `eff_ref = 0.9637`,
`eff_nom = 1.0` (so `dc_capacity = ac_capacity` and
`efficiency_term = 1/0.9637`):
returns 0 for a DC input of exactly 0, else
`min(ac_capacity, dc_in * efficiency_term * (-0.0162 ζ - 0.0059/ζ + 0.9858))`
with `ζ = dc_in / dc_capacity` (python `min` semantics).
`inverterEff` is the normalized efficiency curve at loading ratio `ζ`. -/
def inverterEff (zeta : FV) : FV :=
  fmul (FV.fin (1 / 0.9637))
    (fadd (fsub (fmul (FV.fin (-0.0162)) zeta) (fdiv (FV.fin 0.0059) zeta))
      (FV.fin 0.9858))

def acOutput (acCap : ℚ) (dcIn : FV) : FV :=
  if dcIn = FV.fin 0 then FV.fin 0
  else pymin (FV.fin acCap) (fmul dcIn (inverterEff (fdiv dcIn (FV.fin acCap))))

/-- The final stage of `run_model` per element: with the inverter,
`ac_out = clip(lower=0) (ac_output dc)` then `* (1 - system_loss)`;
without it, `dc * (1 - system_loss)`. -/
def finalElem (useInverter : Bool) (invC systemLoss : ℚ) (dc : FV) : FV :=
  if useInverter then
    fmul (fclipLower 0 (acOutput invC dc)) (FV.fin (1 - systemLoss))
  else fmul dc (FV.fin (1 - systemLoss))

/-- Steps 4-6 of `run_model` given the plane-of-array series: total plane
irradiance, ambient temperature (a constant 20 °C series when the data has no
temperature column), panel power clipped above at the DC capacity, and the
inverter / system-loss stage. -/
def runModelPost (O : TrigOracle) (k : HuldK) (capacity : ℚ) (tamb : List FV)
    (hasTemp : Bool) (invC systemLoss : ℚ) (useInverter : Bool)
    (pd pf : List FV) : List FV :=
  ((List.zipWith (powerElem O k capacity) (List.zipWith fadd pd pf)
      (if hasTemp then tamb
       else List.replicate (List.zipWith fadd pd pf).length (FV.fin 20))).map
    (fclipUpper capacity)).map (finalElem useInverter invC systemLoss)

/-- `run_model` (`gsee/pv.py` lines 263-395), with the solar angles passed in
(`angles` argument) and the `include_raw_data=False` return shape:

1. reject `system_loss` outside `[0, 1]`;
2. `dir_horiz = global_horizontal * (1 - diffuse_fraction)`,
   `diff_horiz = global_horizontal * diffuse_fraction`;
3. `aperture_irradiance` with `tilt`/`azimuth` converted to radians,
   `dni_only=False` and the default `albedo=0.3`
   (the unreachable `dniSeries` arm returns an empty series);
4. ambient temperature column, or a constant 20 °C series;
5. panel power from `_PANEL_TYPES[technology]` (`KeyError` for an unknown
   key), clipped above at `capacity`;
6. inverter stage with `inverter_capacity` defaulting to `capacity`, and the
   `(1 - system_loss)` factor. -/
def runModel (O : TrigOracle) (gh dfr tamb : List FV) (hasTemp : Bool)
    (lat tiltDeg azimDeg : ℚ) (tracking : ℤ) (capacity : ℚ) (invCap : Option ℚ)
    (useInverter : Bool) (technology : String) (systemLoss : ℚ)
    (cumulative : Bool) (angles : List AngleRec) : Except String (List FV) :=
  if systemLoss < 0 ∨ 1 < systemLoss then
    Except.error "system_loss must be >=0 and <=1"
  else
    match panelTypes technology with
    | none => Except.error ("KeyError: " ++ technology)
    | some k =>
      match apertureIrradiance O
          (List.zipWith (fun g d => fmul g (fsub (FV.fin 1) d)) gh dfr)
          (List.zipWith fmul gh dfr) lat (radiansQ O tiltDeg)
          (radiansQ O azimDeg) tracking 0.3 false cumulative angles with
      | Except.error e => Except.error e
      | Except.ok (ApertureOut.dniSeries _) => Except.ok []
      | Except.ok (ApertureOut.planes pd pf) =>
        Except.ok (runModelPost O k capacity tamb hasTemp
          (invCap.getD capacity) systemLoss useInverter pd pf)

/-!
## BRL diffuse-fraction model (`gsee/brl_model.py`)

`_solartime` (per-hour apparent solar time) and the `sun.alt` evaluated at
hour 0 of the day are `ephem` results, passed as oracles `ast : ℕ → ℚ` and
`alpha : ℚ`.  `ks` is the day's list of 24 hourly clearness indices.
-/

/-- Python list indexing with negative-index wraparound (used by
`ks[hour - 1]`, which for `hour = 0` reads the last element). Out-of-range
non-negative indices only occur inside `try/except IndexError` blocks in the
code, which are modelled by explicit length tests at the call sites. -/
def pyGet (ks : List FV) (i : ℤ) : FV :=
  if i < 0 then ks.getD (ks.length - (-i).toNat) FV.nan
  else ks.getD i.toNat FV.nan

/-- The function returned by `_get_psi_func` for the given sunrise/sunset
hours (the hours default to 0 / 23 when the rise or set time is `None`):
* strictly between the sunrise and sunset hours: the centered neighbour mean
  `(ks[hour-1] + ks[hour+1])/2`, with a fallback to a single neighbour when
  that mean is NaN (note: if both neighbours are NaN the fallback
  `ks[hour+1]` is itself NaN);
* at the sunrise hour: `ks[hour+1]`, or `ks[hour]` past the end of the list;
* at the sunset hour: `ks[hour-1]`, with the same `IndexError` guard;
* otherwise 0. -/
def psiF (ks : List FV) (sunriseHour sunsetHour hour : ℕ) : FV :=
  if sunriseHour < hour ∧ hour < sunsetHour then
    let p := fdiv (fadd (pyGet ks ((hour : ℤ) - 1)) (pyGet ks ((hour : ℤ) + 1)))
      (FV.fin 2)
    if isNan p then
      if isNan (pyGet ks ((hour : ℤ) - 1)) then pyGet ks ((hour : ℤ) + 1)
      else pyGet ks ((hour : ℤ) - 1)
    else p
  else if hour = sunriseHour then
    if hour + 1 < ks.length then pyGet ks ((hour : ℤ) + 1) else pyGet ks hour
  else if hour = sunsetHour then
    if hour - 1 < ks.length then pyGet ks ((hour : ℤ) - 1) else pyGet ks hour
  else FV.fin 0

/-- The BRL regression coefficients. -/
structure BrlParams where
  a0 : ℚ
  a1 : ℚ
  b1 : ℚ
  b2 : ℚ
  b3 : ℚ
  b4 : ℚ
deriving DecidableEq

/-- `DEFAULT_PARAMS`, the updated Lauret et al. (2013) coefficients. -/
def defaultParams : BrlParams := ⟨-5.32, 7.28, -0.03, -0.0047, 1.72, 1.08⟩

/-- `_daily_diffuse` (`gsee/brl_model.py` lines 96-126): for each of the 24
hours, NaN when the hour's clearness index is NaN, else the logistic value
`1 / (1 + e ^ (a0 + a1 kt + b1 ast + b2 alpha + b3 k_day + b4 ψ))` where
`k_day` is the NaN-skipping mean of `ks` and `ψ` comes from `psiF`.
`exp` is the oracle for `math.e ** x`; `ast hour` is the `_solartime` oracle
at the given hour; `alpha` is `sun.alt` at hour 0 of the day.
`dailyDiffuseHour` is the loop body for one hour. -/
def dailyDiffuseHour (exp : ℚ → ℚ) (ast : ℕ → ℚ) (alpha : ℚ) (ks : List FV)
    (p : BrlParams) (sunriseHour sunsetHour hour : ℕ) : FV :=
  match ks.getD hour FV.nan with
  | FV.nan => FV.nan
  | FV.fin kh =>
    fdiv (FV.fin 1) (fadd (FV.fin 1) (FV.map exp (fadd
      (fadd
        (fadd (fadd (FV.fin p.a0) (FV.fin (p.a1 * kh)))
          (FV.fin (p.b1 * ast hour)))
        (fadd (FV.fin (p.b2 * alpha)) (fmul (FV.fin p.b3) (fmean ks))))
      (fmul (FV.fin p.b4) (psiF ks sunriseHour sunsetHour hour)))))

def dailyDiffuse (exp : ℚ → ℚ) (ast : ℕ → ℚ) (alpha : ℚ) (ks : List FV)
    (sunrise sunset : Option ℕ) (p : BrlParams) : List FV :=
  (List.range 24).map
    (dailyDiffuseHour exp ast alpha ks p (sunrise.getD 0) (sunset.getD 23))

/-!
## Temporal resampling (`gsee/climatedata_interface/pre_gsee_processing.py`)
-/

/-- Modelled from the spec: the hourly sinusoidal shape function
`kt_h_sinusfunc.apply_csinus_func` is compiled Cython whose source is not in
the repository snapshot (only its callers and tests are).  Per spec §4.2 it
generates, for each hour of a day, a value from a smooth sinusoidal shape
parameterized by the day's sunrise/sunset decimal hours (zero outside the lit
window, peaking near solar noon) and scaled by the day's (factor-scaled)
irradiance value.  It is modelled as an abstract per-hour profile
`shape : ℕ → ℚ` (absorbing the sunrise/sunset parameterization) multiplied by
the daily value `ghDay`. -/
def csinusFunc (shape : ℕ → ℚ) (ghDay : FV) (h : ℕ) : FV :=
  fmul (FV.fin (shape h)) ghDay

/-- `convert_to_durinal` (`pre_gsee_processing.py` lines 263-311), restricted
to a single day with daily value `gh` (all series steps in the function are
per-day: the upsampling broadcasts the daily rows to 24 hourly rows and the
correction factor is constant within each day):

* `global_horizontal_day = factor * gh`;
* 24 hourly values from the sinusoidal shape function;
* `mean_daily` = daily mean of the generated hourly values;
* `corr_fact = mean_daily / gh`;
* corrected hourly series = hourly value / `corr_fact`. -/
def convertToDurinalDay (shape : ℕ → ℚ) (gh : FV) (factor : ℚ) : List FV :=
  let ghDay := fmul (FV.fin factor) gh
  let hourly := (List.range 24).map (csinusFunc shape ghDay)
  let meanDaily := fmean hourly
  let corrFact := fdiv meanDaily gh
  hourly.map (fun x => fdiv x corrFact)

/-- The normalization `pk = pk / sum(pk)` applied by `create_rand_month`
before sampling. -/
def pkNormalized (pk : List ℚ) : List ℚ := pk.map (fun p => p / pk.sum)

/-- `create_rand_month` (`pre_gsee_processing.py` lines 202-233).  The
`scipy.stats.rv_discrete(...).rvs` sampler is the oracle `draw`, receiving
the scaled bins `xk * 10000` and the normalized probabilities and returning
the sample at each day index.  When `sum(pk)` is not positive the function
returns `np.full(n, 0)` instead of sampling. -/
def createRandMonth (draw : List ℚ → List ℚ → ℕ → ℚ) (xk pk : List ℚ)
    (n : ℕ) : List ℚ :=
  let xkScaled := xk.map (fun x => x * 10000)
  if 0 < pk.sum then
    (List.range n).map (fun i => draw xkScaled (pkNormalized pk) i / 10000)
  else List.replicate n 0

/-- The post-sampling renormalization step of `_resample_with_pdfs`
(`pre_gsee_processing.py` line 176-177): when the sampled list has any
nonzero entry (python truthiness of `any(rand_days_list)`), every entry is
multiplied by `gh / np.mean(rand_days_list)`. -/
def renormListStep (gh : ℚ) (days : List ℚ) : List ℚ :=
  if days.any (fun q => q != 0) then
    days.map (fun q => q * (gh / npMeanQ days))
  else days

/-- One month of `_resample_with_pdfs` (frequency `'M'`, `n_months = 1`):
the month's `n` sampled days followed by the mean renormalization against the
row's `global_horizontal` value `gh`. -/
def resampleWithPdfsMonth (draw : List ℚ → List ℚ → ℕ → ℚ) (gh : ℚ)
    (xk pk : List ℚ) (n : ℕ) : List ℚ :=
  renormListStep gh (createRandMonth draw xk pk n)

/-!
## Concrete oracle instances used by the closed (witness/counterexample)
theorems below
-/

/-- A concrete trig/math oracle: constant `cos = 1` (true at 0), `sin = 0`,
`arccos = 0`, `sqrt = 0`, `arctan = 0`, `log` NaN on non-positive arguments
and 0 elsewhere (true at 1), `exp = 1`, `pi = 3`. -/
def oFlat : TrigOracle where
  cos := fun _ => 1
  sin := fun _ => 0
  tan := fun _ => 0
  arctan := fun _ => 0
  arccos := fun _ => FV.fin 0
  sqrt := fun _ => FV.fin 0
  log := fun q => if q ≤ 0 then FV.nan else FV.fin 0
  exp := fun _ => 1
  pi := 3

/-- A sun-position oracle with the sun always up (altitude 1 rad). -/
def oSunUp : SunOracle where
  altAt := fun _ => 1
  azAt := fun _ => 2

/-- A sun-position oracle with the sun slightly below the horizon
(altitude -0.1 rad), as happens at the midpoint of the illuminated span of a
sunrise hour (the `ephem` rise time refers to the refracted upper limb, so the
geometric centre altitude right after the rise is still negative). -/
def oSunLow : SunOracle where
  altAt := fun _ => -(1 / 10)
  azAt := fun _ => 0

/-- A solar-angles row with the sun at the zenith for a full hour. -/
def angleRow0 : AngleRec := ⟨FV.fin 0, FV.fin 0, FV.fin 60, FV.fin 0, FV.fin 1⟩

/-- A rise/set table: sun up from 06:00:00 to 18:00:00 every day. -/
def rsFlat : ℕ → Option ClockTime × Option ClockTime :=
  fun _ => (some ⟨6, 0, 0⟩, some ⟨18, 0, 0⟩)

/-- A concrete `rv_discrete.rvs` sampling oracle: always draws 30000 (scaled
by the `multi = 10000` factor that `create_rand_month` divides back out). -/
def drawConst : List ℚ → List ℚ → ℕ → ℚ := fun _ _ _ => 30000

/-- A concrete diurnal shape profile: lit between hours 8 and 16. -/
def shapeWin : ℕ → ℚ := fun h => if 8 ≤ h ∧ h ≤ 16 then 1 else 0

/-- A day of hourly clearness indices with an isolated valid value at noon:
NaN at hours 11 and 13, 0.5 at hour 12, 0.3 elsewhere. -/
def ksIsolated : List FV :=
  (List.range 24).map fun h =>
    if h = 11 ∨ h = 13 then FV.nan
    else if h = 12 then FV.fin 0.5 else FV.fin 0.3

/-!
## Helper lemmas
-/

theorem fvNonnegB_iff (x : FV) : fvNonnegB x = true ↔ ∃ q, x = FV.fin q ∧ 0 ≤ q := by
  cases x with
  | nan => simp [fvNonnegB]
  | fin q => simp [fvNonnegB]

theorem fvNonnegB_clip_fillna (x : FV) :
    fvNonnegB (fclipLower 0 (ffillna 0 x)) = true := by
  cases x with
  | nan => simp [ffillna, fclipLower, fvNonnegB]
  | fin a => simp [ffillna, fclipLower, fvNonnegB, le_max_right]

theorem isFinB_fillna (z : ℚ) (x : FV) : isFinB (ffillna z x) = true := by
  cases x <;> simp [ffillna, isFinB]

theorem all_zipWith_const {α β γ : Type} {f : α → β → γ} {p : γ → Bool}
    (h : ∀ a b, p (f a b) = true) :
    ∀ (l₁ : List α) (l₂ : List β), (List.zipWith f l₁ l₂).all p = true := by
  intro l₁
  induction l₁ with
  | nil => intro l₂; simp
  | cons a t ih =>
    intro l₂
    cases l₂ with
    | nil => simp
    | cons b t₂ => simp [h a b, ih t₂]

theorem all_zipWith_left {α β γ : Type} {f : α → β → γ} {p : γ → Bool}
    {q : α → Bool} (h : ∀ a b, q a = true → p (f a b) = true) :
    ∀ (l₁ : List α) (l₂ : List β), l₁.all q = true →
      (List.zipWith f l₁ l₂).all p = true := by
  intro l₁
  induction l₁ with
  | nil => intro l₂ _; simp
  | cons a t ih =>
    intro l₂ hq
    simp only [List.all_cons, Bool.and_eq_true] at hq
    cases l₂ with
    | nil => simp
    | cons b t₂ => simp [h a b hq.1, ih t₂ hq.2]

theorem all_zipWith_both {α β γ : Type} {f : α → β → γ} {p : γ → Bool}
    {q : α → Bool} {r : β → Bool}
    (h : ∀ a b, q a = true → r b = true → p (f a b) = true) :
    ∀ (l₁ : List α) (l₂ : List β), l₁.all q = true → l₂.all r = true →
      (List.zipWith f l₁ l₂).all p = true := by
  intro l₁
  induction l₁ with
  | nil => intro l₂ _ _; simp
  | cons a t ih =>
    intro l₂ hq hr
    simp only [List.all_cons, Bool.and_eq_true] at hq
    cases l₂ with
    | nil => simp
    | cons b t₂ =>
      simp only [List.all_cons, Bool.and_eq_true] at hr
      simp [h a b hq.1 hr.1, ih t₂ hq.2 hr.2]

theorem all_zip {α β : Type} {q : α → Bool} {r : β → Bool} :
    ∀ (l₁ : List α) (l₂ : List β), l₁.all q = true → l₂.all r = true →
      (l₁.zip l₂).all (fun p => q p.1 && r p.2) = true := by
  intro l₁
  induction l₁ with
  | nil => intro l₂ _ _; simp
  | cons a t ih =>
    intro l₂ hq hr
    simp only [List.all_cons, Bool.and_eq_true] at hq
    cases l₂ with
    | nil => simp
    | cons b t₂ =>
      simp only [List.all_cons, Bool.and_eq_true] at hr
      simp only [List.zip_cons_cons, List.all_cons, Bool.and_eq_true]
      exact ⟨⟨hq.1, hr.1⟩, ih t₂ hq.2 hr.2⟩

theorem all_map_const {α β : Type} {f : α → β} {p : β → Bool}
    (h : ∀ a, p (f a) = true) (l : List α) : (l.map f).all p = true := by
  induction l with
  | nil => simp
  | cons a t ih => simp [h a, ih]

theorem all_map_of_all {α β : Type} {f : α → β} {p : β → Bool} {q : α → Bool}
    (h : ∀ a, q a = true → p (f a) = true) :
    ∀ l : List α, l.all q = true → (l.map f).all p = true := by
  intro l
  induction l with
  | nil => intro _; simp
  | cons a t ih =>
    intro hq
    simp only [List.all_cons, Bool.and_eq_true] at hq
    simp [h a hq.1, ih hq.2]

/-- Inversion for `aperture_irradiance` with `dni_only = False` returning a
planes DataFrame: the tracking mode was valid and the two output series are
the element-wise plane-of-array computations. -/
theorem apertureIrradiance_planes_inv {O : TrigOracle} {direct diffuse : List FV}
    {lat tilt azimuth : ℚ} {tracking : ℤ} {albedo : ℚ} {cumulative : Bool}
    {angles : List AngleRec} {dOut fOut : List FV}
    (h : apertureIrradiance O direct diffuse lat tilt azimuth tracking albedo
      false cumulative angles = Except.ok (ApertureOut.planes dOut fOut)) :
    (tracking = 0 ∨ tracking = 1 ∨ tracking = 2) ∧
    dOut = List.zipWith (planeDirectElem O)
      (List.zipWith (dniElem O cumulative) direct angles)
      (angles.map (trackingGeomElem O tilt
        (if lat < 0 then azimuth + O.pi else azimuth) tracking)) ∧
    fOut = List.zipWith
      (fun (p : FV × FV) g => planeDiffuseElem O p.1 p.2 albedo g)
      (direct.zip diffuse)
      (angles.map (trackingGeomElem O tilt
        (if lat < 0 then azimuth + O.pi else azimuth) tracking)) := by
  unfold apertureIrradiance at h
  by_cases ht : tracking = 0 ∨ tracking = 1 ∨ tracking = 2
  · simp only [Bool.false_eq_true, if_false, if_pos ht] at h
    injection h with h
    injection h with h₁ h₂
    exact ⟨ht, h₁.symm, h₂.symm⟩
  · simp only [Bool.false_eq_true, if_false, if_neg ht] at h
    exact absurd h (by simp)

theorem planeDiffuseElem_nonneg (O : TrigOracle) (d f : FV) (albedo : ℚ)
    (g : PanelGeom) (hcos : ∀ q, -1 ≤ O.cos q ∧ O.cos q ≤ 1) (halb : 0 ≤ albedo)
    (hd : fvNonnegB d = true) (hf : fvNonnegB f = true) :
    fvNonnegB (planeDiffuseElem O d f albedo g) = true := by
  obtain ⟨a, rfl, ha⟩ := (fvNonnegB_iff d).mp hd
  obtain ⟨b, rfl, hb⟩ := (fvNonnegB_iff f).mp hf
  cases hg : g.panelTilt with
  | nan =>
    simp [planeDiffuseElem, hg, FV.map, fadd, fsub, fmul, fdiv, ffillna, fvNonnegB]
  | fin t =>
    have h2 : (2 : ℚ) ≠ 0 := by norm_num
    simp only [planeDiffuseElem, hg, FV.map, fadd, fsub, fmul, fdiv, ffillna,
      fvNonnegB, if_neg h2, decide_eq_true_eq]
    have hc := hcos t
    have h1 : 0 ≤ (1 + O.cos t) / 2 := by linarith [hc.1]
    have h3 : 0 ≤ (1 - O.cos t) / 2 := by linarith [hc.2]
    exact add_nonneg (mul_nonneg hb h1)
      (mul_nonneg (mul_nonneg halb (add_nonneg ha hb)) h3)

/-- C1: for every run of `aperture_irradiance` with `dni_only = False` that
returns the planes DataFrame, every value of the plane-of-array direct series
is finite and non-negative, for arbitrary (negative or NaN) inputs; the
diffuse series, however, is only guaranteed finite and non-negative when the
input direct and diffuse horizontal series are themselves non-negative and
NaN-free (the code applies `.fillna(0)` but no `.clip(lower=0)` to the
diffuse component), given that the cosine oracle is genuinely bounded by 1 in
absolute value and the albedo is non-negative. -/
theorem C1_plane_irradiance_nonneg (O : TrigOracle) (direct diffuse : List FV)
    (lat tilt azimuth : ℚ) (tracking : ℤ) (albedo : ℚ) (cumulative : Bool)
    (angles : List AngleRec) (dOut fOut : List FV)
    (h : apertureIrradiance O direct diffuse lat tilt azimuth tracking albedo
      false cumulative angles = Except.ok (ApertureOut.planes dOut fOut)) :
    dOut.all fvNonnegB = true ∧
    ((∀ q, -1 ≤ O.cos q ∧ O.cos q ≤ 1) → 0 ≤ albedo →
      direct.all fvNonnegB = true → diffuse.all fvNonnegB = true →
      fOut.all fvNonnegB = true) := by
  obtain ⟨-, hdir, hdif⟩ := apertureIrradiance_planes_inv h
  constructor
  · subst hdir
    exact all_zipWith_const (fun d g => fvNonnegB_clip_fillna _) _ _
  · intro hcos halb hD hF
    subst hdif
    exact all_zipWith_left
      (fun p g hp => by
        simp only [Bool.and_eq_true] at hp
        exact planeDiffuseElem_nonneg O p.1 p.2 albedo g hcos halb hp.1 hp.2)
      _ _ (all_zip direct diffuse hD hF)

/-- C1 counterexample: with a negative input diffuse value (-10 W/m²), zero
direct irradiance, a fixed flat panel and the sun at the zenith, the returned
plane-of-array diffuse value is -10, which is negative — refuting the claim
that both returned series are always ≥ 0 regardless of input sign noise. -/
theorem C1_negative_diffuse_counterexample :
    apertureIrradiance oFlat [FV.fin 0] [FV.fin (-10)] 0 0 0 0 0.3 false false
      [angleRow0] = Except.ok (ApertureOut.planes [FV.fin 0] [FV.fin (-10)]) ∧
    fvNonnegB (FV.fin (-10)) = false := by
  exact ⟨by with_unfolding_all rfl, by with_unfolding_all rfl⟩

/-- C1 witness: the non-negativity theorem applied to a concrete run with
non-negative inputs (direct 100, diffuse 50, sun at zenith). -/
theorem C1_plane_irradiance_nonneg_witness :
    ([FV.fin 100] : List FV).all fvNonnegB = true ∧
    ([FV.fin 50] : List FV).all fvNonnegB = true := by
  have h : apertureIrradiance oFlat [FV.fin 100] [FV.fin 50] 0 0 0 0 0.3 false
      false [angleRow0] = Except.ok (ApertureOut.planes [FV.fin 100] [FV.fin 50]) := by
    with_unfolding_all rfl
  have r := C1_plane_irradiance_nonneg oFlat [FV.fin 100] [FV.fin 50] 0 0 0 0 0.3
    false [angleRow0] [FV.fin 100] [FV.fin 50] h
  refine ⟨r.1, r.2 (fun q => ?_) (by norm_num) ?_ ?_⟩
  · constructor <;> norm_num [oFlat]
  · simp [fvNonnegB]
  · simp [fvNonnegB]

theorem fmul_fin_one (x : FV) : fmul x (FV.fin 1) = x := by
  cases x with
  | nan => rfl
  | fin q => simp [fmul]

theorem zipWith_zipWith_map {α β γ δ ε : Type} (f : α → β → γ) (g : γ → δ → ε)
    (m : β → δ) : ∀ (l₁ : List α) (l₂ : List β),
    List.zipWith g (List.zipWith f l₁ l₂) (l₂.map m)
      = List.zipWith (fun a b => g (f a b) (m b)) l₁ l₂ := by
  intro l₁
  induction l₁ with
  | nil => intro l₂; simp
  | cons a t ih =>
    intro l₂
    cases l₂ with
    | nil => simp
    | cons b t₂ => simp [ih t₂]

/-- C3: in a `tracking = 2` (dual-axis) run of `aperture_irradiance` that
returns the planes DataFrame, the incidence angle used is the constant 0 for
every row, the effective panel tilt is `π/2 - sun_alt` (the sun zenith angle)
and the panel azimuth is the sun azimuth; since `cos 0 = 1` the plane-of-array
direct series is exactly the DNI series passed through `.fillna(0)` and
`.clip(lower=0)` — so it equals the computed DNI at every entry where that DNI
is finite and non-negative (but not in general: the fillna/clip is still
applied). -/
theorem C3_dual_axis_geometry (O : TrigOracle) (direct diffuse : List FV)
    (lat tilt azimuth albedo : ℚ) (cumulative : Bool) (angles : List AngleRec)
    (dOut fOut : List FV) (hc : O.cos 0 = 1)
    (h : apertureIrradiance O direct diffuse lat tilt azimuth 2 albedo false
      cumulative angles = Except.ok (ApertureOut.planes dOut fOut)) :
    (∀ az a, trackingGeomElem O tilt az 2 a
      = ⟨FV.fin 0, fsub (FV.fin (O.pi / 2)) a.sunAlt, a.sunAzimuth⟩) ∧
    dOut = List.zipWith
      (fun d a => fclipLower 0 (ffillna 0 (dniElem O cumulative d a)))
      direct angles ∧
    (∀ q, 0 ≤ q → fclipLower 0 (ffillna 0 (FV.fin q)) = FV.fin q) := by
  have hgeom : ∀ az a, trackingGeomElem O tilt az 2 a
      = ⟨FV.fin 0, fsub (FV.fin (O.pi / 2)) a.sunAlt, a.sunAzimuth⟩ := by
    intro az a
    norm_num [trackingGeomElem]
  obtain ⟨-, hdir, -⟩ := apertureIrradiance_planes_inv h
  refine ⟨hgeom, ?_, ?_⟩
  · subst hdir
    rw [zipWith_zipWith_map]
    congr 1
    funext d a
    rw [hgeom, planeDirectElem]
    simp only [FV.map, hc]
    rw [fmul_fin_one]
  · intro q hq
    simp [ffillna, fclipLower, max_eq_left hq]

/-- C3 counterexample: with a negative input direct value (-60 W/m²) and the
sun at the zenith, a dual-axis run computes a DNI of -60 for the hour but
returns a plane-of-array direct value of 0 (the clip re-zeroes it), so the
returned direct series does not equal the computed DNI series for every
input. -/
theorem C3_negative_dni_counterexample :
    apertureIrradiance oFlat [FV.fin (-60)] [FV.fin 0] 0 0 0 2 0.3 false false
      [angleRow0] = Except.ok (ApertureOut.planes [FV.fin 0] [FV.fin 0]) ∧
    dniElem oFlat false (FV.fin (-60)) angleRow0 = FV.fin (-60) ∧
    FV.fin 0 ≠ FV.fin (-60) := by
  refine ⟨by with_unfolding_all rfl, by with_unfolding_all rfl, ?_⟩
  intro hcontra
  injection hcontra with hq
  norm_num at hq

/-- C3 witness: the dual-axis theorem applied to a concrete run (direct 80,
sun at zenith), where the plane-of-array direct output equals the
fillna/clipped DNI series. -/
theorem C3_dual_axis_geometry_witness :
    ([FV.fin 80] : List FV) = List.zipWith
      (fun d a => fclipLower 0 (ffillna 0 (dniElem oFlat false d a)))
      [FV.fin 80] [angleRow0] := by
  have h : apertureIrradiance oFlat [FV.fin 80] [FV.fin 0] 0 0 0 2 0.3 false
      false [angleRow0]
      = Except.ok (ApertureOut.planes [FV.fin 80] [FV.fin 0]) := by
    with_unfolding_all rfl
  exact (C3_dual_axis_geometry oFlat [FV.fin 80] [FV.fin 0] 0 0 0 0.3 false
    [angleRow0] [FV.fin 80] [FV.fin 0] (by norm_num [oFlat]) h).2.1

/-- C7: for a tracking mode outside `{0, 1, 2}` and `dni_only = False`,
`aperture_irradiance` raises `ValueError` — but note this happens only after
the DNI series has been computed (step 2 precedes the check). -/
theorem C7_invalid_tracking_error (O : TrigOracle) (direct diffuse : List FV)
    (lat tilt azimuth : ℚ) (tracking : ℤ) (albedo : ℚ) (cumulative : Bool)
    (angles : List AngleRec)
    (h0 : tracking ≠ 0) (h1 : tracking ≠ 1) (h2 : tracking ≠ 2) :
    apertureIrradiance O direct diffuse lat tilt azimuth tracking albedo false
      cumulative angles
      = Except.error ("Invalid setting for tracking: " ++ toString tracking) := by
  unfold apertureIrradiance
  simp [h0, h1, h2]

/-- C7 counterexample: with `dni_only = True` the invalid tracking mode 7 is
never rejected — the function returns the DNI series normally, refuting the
claim that the configuration error is raised for every `dni_only` setting
(and, a fortiori, that it is raised before any irradiance computation). -/
theorem C7_dni_only_no_error_counterexample :
    apertureIrradiance oFlat [FV.fin 100] [FV.fin 50] 0 0 0 7 0.3 true false
      [angleRow0] = Except.ok (ApertureOut.dniSeries [FV.fin 100]) := by
  with_unfolding_all rfl

/-- C7 witness: the invalid-tracking theorem applied to the concrete tracking
mode 7 with `dni_only = False`. -/
theorem C7_invalid_tracking_error_witness :
    apertureIrradiance oFlat [] [] 0 0 0 7 0.3 false false []
      = Except.error ("Invalid setting for tracking: " ++ toString (7 : ℤ)) :=
  C7_invalid_tracking_error oFlat [] [] 0 0 0 7 0.3 false []
    (by decide) (by decide) (by decide)

/-- C6 (amended): for well-formed sunrise/sunset clock times, every duration
produced by the instantaneous `sun_angles` loop lies in `[0, 60]` and the
returned sun altitude is never negative; moreover in an hour that is neither
the sunrise nor the sunset hour, a negative midpoint altitude forces both the
duration and the altitude to 0.  (In the sunrise/sunset hours themselves the
duration is the illuminated span and stays positive even when the clipped
altitude is returned as 0.) -/
theorem C6_duration_and_altitude (O : SunOracle) (riseT setT : Option ClockTime)
    (h : ℕ)
    (hr : ∀ t, riseT = some t → t.minute ≤ 59 ∧ 0 ≤ t.second ∧ t.second < 60)
    (hs : ∀ t, setT = some t → t.minute ≤ 59 ∧ 0 ≤ t.second ∧ t.second < 60) :
    0 ≤ (sunAngleHour O riseT setT h).duration ∧
    (sunAngleHour O riseT setT h).duration ≤ 60 ∧
    0 ≤ (sunAngleHour O riseT setT h).sunAlt ∧
    (isHourOf riseT h = false → isHourOf setT h = false →
      O.altAt ((h : ℚ) * 60 + 30) < 0 →
      (sunAngleHour O riseT setT h).duration = 0 ∧
      (sunAngleHour O riseT setT h).sunAlt = 0) := by
  cases hri : isHourOf riseT h with
  | true =>
    cases riseT with
    | none => simp [isHourOf] at hri
    | some rt =>
      obtain ⟨hm, hs0, hs60⟩ := hr rt rfl
      have hmq : (rt.minute : ℚ) ≤ 59 := by exact_mod_cast hm
      have hdiv : rt.second / 60 < 1 := by
        rw [div_lt_one (by norm_num : (0 : ℚ) < 60)]; linarith
      have hdiv0 : 0 ≤ rt.second / 60 := by positivity
      simp only [sunAngleHour, hri, if_true, Option.getD_some]
      refine ⟨by linarith, by linarith, le_max_right _ _, fun hf _ _ => ?_⟩
      simp at hf
  | false =>
    cases hsi : isHourOf setT h with
    | true =>
      cases setT with
      | none => simp [isHourOf] at hsi
      | some st =>
        obtain ⟨hm, hs0, hs60⟩ := hs st rfl
        have hmq : (st.minute : ℚ) ≤ 59 := by exact_mod_cast hm
        have hdiv : st.second / 60 < 1 := by
          rw [div_lt_one (by norm_num : (0 : ℚ) < 60)]; linarith
        have hdiv0 : 0 ≤ st.second / 60 := by positivity
        have hm0 : (0 : ℚ) ≤ (st.minute : ℚ) := by positivity
        simp only [sunAngleHour, hri, hsi, Bool.false_eq_true, if_false,
          if_true, Option.getD_some]
        refine ⟨by linarith, by linarith, le_max_right _ _, fun _ hf _ => ?_⟩
        simp at hf
    | false =>
      by_cases halt : O.altAt ((h : ℚ) * 60 + 30) < 0
      · simp only [sunAngleHour, hri, hsi, Bool.false_eq_true, if_false,
          if_pos halt]
        norm_num
      · simp only [sunAngleHour, hri, hsi, Bool.false_eq_true, if_false,
          if_neg halt]
        refine ⟨by norm_num, by norm_num, le_max_right _ _, fun _ _ hf => ?_⟩
        exact absurd hf halt

/-- C6 counterexample: in the sunrise hour (sunrise at 06:30, timestamp hour
6) with the sun's centre still 0.1 rad below the horizon at the midpoint of
the illuminated span, `sun_angles` returns a clipped altitude of 0 together
with a duration of 30 minutes — refuting the claim that the duration is 0
whenever the returned solar altitude is ≤ 0. -/
theorem C6_sunrise_hour_counterexample :
    ¬ ((sunAngleHour oSunLow (some ⟨6, 30, 0⟩) (some ⟨18, 0, 0⟩) 6).sunAlt ≤ 0 →
      (sunAngleHour oSunLow (some ⟨6, 30, 0⟩) (some ⟨18, 0, 0⟩) 6).duration = 0) := by
  have hrec : sunAngleHour oSunLow (some ⟨6, 30, 0⟩) (some ⟨18, 0, 0⟩) 6
      = ⟨0, 0, 30⟩ := by with_unfolding_all rfl
  rw [hrec]
  intro hf
  have := hf le_rfl
  norm_num at this

/-- C6 witness: the duration/altitude bounds theorem applied to a concrete
fully-lit hour (hour 3, sunrise 06:15, sunset 18:45, sun up). -/
theorem C6_duration_and_altitude_witness :
    0 ≤ (sunAngleHour oSunUp (some ⟨6, 15, 0⟩) (some ⟨18, 45, 0⟩) 3).duration ∧
    (sunAngleHour oSunUp (some ⟨6, 15, 0⟩) (some ⟨18, 45, 0⟩) 3).duration ≤ 60 ∧
    0 ≤ (sunAngleHour oSunUp (some ⟨6, 15, 0⟩) (some ⟨18, 45, 0⟩) 3).sunAlt ∧
    (isHourOf (some ⟨6, 15, 0⟩) 3 = false → isHourOf (some ⟨18, 45, 0⟩) 3 = false →
      oSunUp.altAt ((3 : ℚ) * 60 + 30) < 0 →
      (sunAngleHour oSunUp (some ⟨6, 15, 0⟩) (some ⟨18, 45, 0⟩) 3).duration = 0 ∧
      (sunAngleHour oSunUp (some ⟨6, 15, 0⟩) (some ⟨18, 45, 0⟩) 3).sunAlt = 0) :=
  C6_duration_and_altitude oSunUp (some ⟨6, 15, 0⟩) (some ⟨18, 45, 0⟩) 3
    (fun t ht => by
      injection ht with ht
      subst ht
      norm_num)
    (fun t ht => by
      injection ht with ht
      subst ht
      norm_num)

/-- C4 (amended): the `sun_angles` computation reads only the naive
day/hour fields of the index timestamps and is therefore invariant under any
change of the timezone information carried by the index — it proceeds with a
non-UTC or timezone-naive index and silently treats it as UTC (per its own
docstring), rather than raising. -/
theorem C4_sun_angles_tz_independent (O : SunOracle)
    (rsTable : ℕ → Option ClockTime × Option ClockTime)
    (idx : List TZTimestamp) (newtz : TZTimestamp → Option ℤ) :
    sunAnglesSeries O rsTable (idx.map (fun t => ⟨t.day, t.hour, newtz t⟩))
      = sunAnglesSeries O rsTable idx := by
  unfold sunAnglesSeries
  rw [List.map_map]
  rfl

/-- C4 counterexample: a non-UTC index entry (UTC+60 minutes timezone info)
is processed without any error and yields exactly the same sun-angle row as
the UTC entry for the same naive timestamp — refuting the claim that
`sun_angles` raises rather than proceeding on a non-UTC index. -/
theorem C4_non_utc_proceeds_counterexample :
    sunAnglesSeries oSunUp rsFlat [⟨0, 12, some 60⟩] = [⟨1, 2, 60⟩] ∧
    sunAnglesSeries oSunUp rsFlat [⟨0, 12, some 60⟩]
      = sunAnglesSeries oSunUp rsFlat [⟨0, 12, none⟩] :=
  ⟨by with_unfolding_all rfl, by with_unfolding_all rfl⟩

theorem sum_map_mul_right {α : Type} (g : α → ℚ) (c : ℚ) :
    ∀ l : List α, (l.map (fun h => g h * c)).sum = (l.map g).sum * c := by
  intro l
  induction l with
  | nil => simp
  | cons a t ih => simp [ih, add_mul]

theorem sum_map_div (c : ℚ) : ∀ l : List ℚ,
    (l.map (fun p => p / c)).sum = l.sum / c := by
  intro l
  induction l with
  | nil => simp
  | cons a t ih => simp [ih, add_div]

theorem finsOf_map_fin {α : Type} (g : α → ℚ) :
    ∀ l : List α, finsOf (l.map (fun x => FV.fin (g x))) = l.map g := by
  intro l
  induction l with
  | nil => rfl
  | cons a t ih => simp [finsOf, List.filterMap] at ih ⊢; exact ih

theorem fmean_map_fin {α : Type} (g : α → ℚ) (l : List α) (hne : l ≠ []) :
    fmean (l.map (fun h => FV.fin (g h)))
      = FV.fin ((l.map g).sum / (l.map g).length) := by
  unfold fmean
  rw [finsOf_map_fin]
  rw [if_neg (by simpa using hne)]

theorem fdiv_fin_fin (a b : ℚ) (hb : b ≠ 0) :
    fdiv (FV.fin a) (FV.fin b) = FV.fin (a / b) := by
  simp [fdiv, hb]

/-- C2 (amended): for a day whose coarse value `q` is strictly positive, a
strictly positive scale factor and a sinusoidal day profile whose 24-hour sum
is nonzero, the daily mean of the corrected hourly series produced by
`convert_to_durinal` equals the original coarse daily value exactly (so in
particular to within any floating-point tolerance). -/
theorem C2_durinal_daily_mean (shape : ℕ → ℚ) (q factor : ℚ)
    (hq : 0 < q) (hf : 0 < factor)
    (hS : ((List.range 24).map shape).sum ≠ 0) :
    fmean (convertToDurinalDay shape (FV.fin q) factor) = FV.fin q := by
  have hq0 : q ≠ 0 := ne_of_gt hq
  have hf0 : factor ≠ 0 := ne_of_gt hf
  set S := ((List.range 24).map shape).sum with hSdef
  have hrne : (List.range 24) ≠ [] := by simp
  have hlen : ((List.range 24).map shape).length = 24 := by simp
  have hhourly : (List.range 24).map (csinusFunc shape (fmul (FV.fin factor) (FV.fin q)))
      = (List.range 24).map (fun h => FV.fin (shape h * (factor * q))) := by
    simp [csinusFunc, fmul]
  have hsum1 : ((List.range 24).map (fun h => shape h * (factor * q))).sum
      = S * (factor * q) := by
    rw [sum_map_mul_right shape (factor * q), hSdef]
  have hmean1 : fmean ((List.range 24).map (fun h => FV.fin (shape h * (factor * q))))
      = FV.fin (S * (factor * q) / 24) := by
    rw [fmean_map_fin _ _ hrne, hsum1]
    norm_num
  set c : ℚ := S * (factor * q) / 24 / q with hcdef
  have hc : c ≠ 0 := by
    have hcv : c = S * factor / 24 := by
      rw [hcdef]
      field_simp
      ring
    rw [hcv]
    exact div_ne_zero (mul_ne_zero hS hf0) (by norm_num)
  have hgoal : convertToDurinalDay shape (FV.fin q) factor
      = ((List.range 24).map (csinusFunc shape (fmul (FV.fin factor) (FV.fin q)))).map
          (fun x => fdiv x (fdiv
            (fmean ((List.range 24).map (csinusFunc shape (fmul (FV.fin factor) (FV.fin q)))))
            (FV.fin q))) := rfl
  rw [hgoal, hhourly, hmean1, fdiv_fin_fin _ _ hq0, ← hcdef, List.map_map]
  have hcomp : ((fun x => fdiv x (FV.fin c)) ∘ fun h => FV.fin (shape h * (factor * q)))
      = fun h => FV.fin (shape h * ((factor * q) / c)) := by
    funext h
    simp only [Function.comp]
    rw [fdiv_fin_fin _ _ hc, mul_div_assoc]
  rw [hcomp, fmean_map_fin _ _ hrne]
  have hsum2 : ((List.range 24).map (fun h => shape h * (factor * q / c))).sum
      = S * (factor * q / c) := by
    rw [sum_map_mul_right shape (factor * q / c), hSdef]
  rw [hsum2]
  congr 1
  simp only [List.length_map, List.length_range, Nat.cast_ofNat]
  rw [hcdef]
  field_simp
  ring

/-- C2 counterexample: a day with coarse value 0 (a legal non-negative
input).  The synthesized hourly values are all 0, the per-day correction
factor is the 0/0 division NaN, and every corrected hourly value — and hence
the recomputed daily mean — is NaN rather than the original value 0.  This
refutes the claim for every non-negative input. -/
theorem C2_zero_day_counterexample :
    fmean (convertToDurinalDay shapeWin (FV.fin 0) 24) = FV.nan ∧
    FV.nan ≠ FV.fin 0 :=
  ⟨by with_unfolding_all rfl, by intro h; cases h⟩

/-- C2 witness: the round-trip theorem applied to the constant day profile
and the coarse value 5 with the `factor = 24` used by the pipeline. -/
theorem C2_durinal_daily_mean_witness :
    fmean (convertToDurinalDay (fun _ => 1) (FV.fin 5) 24) = FV.fin 5 :=
  C2_durinal_daily_mean (fun _ => 1) 5 24 (by norm_num) (by norm_num)
    (by with_unfolding_all decide)

theorem npMeanQ_renorm (gh : ℚ) (days : List ℚ) (hnn : ∀ x ∈ days, 0 ≤ x)
    (hnz : days.any (fun x => x != 0) = true) :
    npMeanQ (days.map (fun q => q * (gh / npMeanQ days))) = gh := by
  obtain ⟨x0, hx0m, hx0⟩ := List.any_eq_true.mp hnz
  have hx0ne : x0 ≠ 0 := by simpa using hx0
  have hx0pos : 0 < x0 := lt_of_le_of_ne (hnn x0 hx0m) (Ne.symm hx0ne)
  have hsum : 0 < days.sum := lt_of_lt_of_le hx0pos (List.single_le_sum hnn x0 hx0m)
  have hsum0 : days.sum ≠ 0 := ne_of_gt hsum
  have hlen : days.length ≠ 0 := by
    intro hl
    rw [List.length_eq_zero] at hl
    subst hl
    cases hx0m
  have hlenq : (days.length : ℚ) ≠ 0 := by exact_mod_cast hlen
  have hmap : (days.map (fun q => q * (gh / npMeanQ days))).sum
      = days.sum * (gh / npMeanQ days) := by
    have h := sum_map_mul_right (fun x : ℚ => x) (gh / npMeanQ days) days
    simpa using h
  unfold npMeanQ
  rw [List.length_map]
  unfold npMeanQ at hmap
  rw [hmap]
  field_simp

/-- C5: for a month sampled by `_resample_with_pdfs` from a non-degenerate
distribution (`sum(pk) > 0`), if the sampled day values (which are drawn from
the non-negative irradiance bins, hence the non-negativity hypothesis) are
not all zero, then after the renormalization step the mean of the month's
daily values equals the row's coarse-period mean `gh` exactly. -/
theorem C5_pdf_month_mean (draw : List ℚ → List ℚ → ℕ → ℚ) (gh : ℚ)
    (xk pk : List ℚ) (n : ℕ) (_hpk : 0 < pk.sum)
    (hnn : ∀ x ∈ createRandMonth draw xk pk n, 0 ≤ x)
    (hnz : (createRandMonth draw xk pk n).any (fun x => x != 0) = true) :
    npMeanQ (resampleWithPdfsMonth draw gh xk pk n) = gh := by
  unfold resampleWithPdfsMonth renormListStep
  rw [if_pos hnz]
  exact npMeanQ_renorm gh _ hnn hnz

/-- C5 witness: the mean-preservation theorem applied to a concrete sample
(two days drawn as 3 from a distribution with `sum(pk) = 2 > 0`, period mean
7). -/
theorem C5_pdf_month_mean_witness :
    npMeanQ (resampleWithPdfsMonth drawConst 7 [3] [2] 2) = 7 := by
  have hev : createRandMonth drawConst [3] [2] 2 = [3, 3] := by
    with_unfolding_all rfl
  refine C5_pdf_month_mean drawConst 7 [3] [2] 2 (by norm_num) ?_ ?_
  · rw [hev]
    intro x hx
    simp only [List.mem_cons, List.not_mem_nil, or_false] at hx
    rcases hx with rfl | rfl <;> norm_num
  · rw [hev]
    with_unfolding_all rfl

/-- C10: `create_rand_month` handles a degenerate distribution by returning a
zero value for each of the `n` days, and for a distribution with any positive
sum it first normalizes `pk` by its sum — so the sampler is invoked with
probabilities that sum to exactly 1 —  before drawing one value per day
(scaled through the `multi = 10000` resolution factor). -/
theorem C10_create_rand_month (draw : List ℚ → List ℚ → ℕ → ℚ)
    (xk pk : List ℚ) (n : ℕ) :
    (pk.sum = 0 → createRandMonth draw xk pk n = List.replicate n 0) ∧
    (0 < pk.sum →
      createRandMonth draw xk pk n
        = (List.range n).map
            (fun i => draw (xk.map (fun x => x * 10000)) (pkNormalized pk) i / 10000) ∧
      (pkNormalized pk).sum = 1) := by
  constructor
  · intro h0
    unfold createRandMonth
    rw [if_neg (by rw [h0]; norm_num)]
  · intro hpos
    refine ⟨?_, ?_⟩
    · unfold createRandMonth
      rw [if_pos hpos]
    · unfold pkNormalized
      rw [sum_map_div, div_self (ne_of_gt hpos)]

/-- C10 witness: the degenerate/normalization theorem applied to the
distribution `pk = [1, 3]` (sum 4, normalized to `[1/4, 3/4]` which sums to
1). -/
theorem C10_create_rand_month_witness :
    createRandMonth drawConst [5] [1, 3] 2
      = (List.range 2).map
          (fun i => drawConst ([5].map (fun x => x * 10000)) (pkNormalized [1, 3]) i / 10000) ∧
    (pkNormalized [1, 3]).sum = 1 :=
  (C10_create_rand_month drawConst [5] [1, 3] 2).2 (by norm_num)

theorem getD_map_range {α : Type} (f : ℕ → α) (d : α) {n m : ℕ} (h : n < m) :
    ((List.range m).map f).getD n d = f n := by
  rw [List.getD_eq_getElem?_getD, List.getElem?_map, List.getElem?_range h]
  rfl

/-- The logistic expression of the BRL model as the spec states it (used to
compare the code's hour computation against the claimed closed form). -/
def brlLogistic (exp : ℚ → ℚ) (p : BrlParams) (kh tSol alpha kd psi : ℚ) : ℚ :=
  1 / (1 + exp (p.a0 + p.a1 * kh + p.b1 * tSol + p.b2 * alpha + p.b3 * kd + p.b4 * psi))

/-- C9 (amended): an hour's BRL diffuse fraction is NaN whenever that hour's
clearness index is NaN; and for an hour with a finite clearness index it
equals the claimed logistic expression — and hence lies in `[0, 1]` — as long
as the day-mean clearness index and the centered-neighbour term ψ are
themselves finite.  (The converse of the NaN direction fails: ψ can be NaN
for an hour whose own clearness index is finite, see the counterexample.) -/
theorem C9_brl_nan_and_logistic (exp : ℚ → ℚ) (ast : ℕ → ℚ) (alpha : ℚ)
    (ks : List FV) (sunrise sunset : Option ℕ) (hour : ℕ) (h24 : hour < 24)
    (hexp : ∀ x, 0 < exp x) :
    (ks.getD hour FV.nan = FV.nan →
      (dailyDiffuse exp ast alpha ks sunrise sunset defaultParams).getD hour FV.nan
        = FV.nan) ∧
    (∀ kh kd psi, ks.getD hour FV.nan = FV.fin kh → fmean ks = FV.fin kd →
      psiF ks (sunrise.getD 0) (sunset.getD 23) hour = FV.fin psi →
      (dailyDiffuse exp ast alpha ks sunrise sunset defaultParams).getD hour FV.nan
        = FV.fin (brlLogistic exp defaultParams kh (ast hour) alpha kd psi) ∧
      0 ≤ brlLogistic exp defaultParams kh (ast hour) alpha kd psi ∧
      brlLogistic exp defaultParams kh (ast hour) alpha kd psi ≤ 1) := by
  have hdd : (dailyDiffuse exp ast alpha ks sunrise sunset defaultParams).getD hour FV.nan
      = dailyDiffuseHour exp ast alpha ks defaultParams (sunrise.getD 0)
          (sunset.getD 23) hour := by
    unfold dailyDiffuse
    exact getD_map_range _ _ h24
  constructor
  · intro hks
    rw [hdd]
    unfold dailyDiffuseHour
    rw [hks]
  · intro kh kd psi hks hkd hpsi
    have hval : dailyDiffuseHour exp ast alpha ks defaultParams (sunrise.getD 0)
        (sunset.getD 23) hour
        = FV.fin (brlLogistic exp defaultParams kh (ast hour) alpha kd psi) := by
      unfold dailyDiffuseHour
      rw [hks, hkd, hpsi]
      simp only [fmul, fadd, FV.map]
      have hne : (1 : ℚ) + exp (defaultParams.a0 + defaultParams.a1 * kh
          + defaultParams.b1 * ast hour + defaultParams.b2 * alpha
          + defaultParams.b3 * kd + defaultParams.b4 * psi) ≠ 0 := by
        have := hexp (defaultParams.a0 + defaultParams.a1 * kh
          + defaultParams.b1 * ast hour + defaultParams.b2 * alpha
          + defaultParams.b3 * kd + defaultParams.b4 * psi)
        linarith
      have harg : defaultParams.a0 + defaultParams.a1 * kh + defaultParams.b1 * ast hour
          + defaultParams.b2 * alpha + defaultParams.b3 * kd
          = defaultParams.a0 + defaultParams.a1 * kh + defaultParams.b1 * ast hour
            + (defaultParams.b2 * alpha + defaultParams.b3 * kd) := by ring
      rw [brlLogistic, ← harg, fdiv_fin_fin _ _ hne]
    have hpos := hexp (defaultParams.a0 + defaultParams.a1 * kh
      + defaultParams.b1 * ast hour + defaultParams.b2 * alpha
      + defaultParams.b3 * kd + defaultParams.b4 * psi)
    refine ⟨by rw [hdd, hval], ?_, ?_⟩
    · unfold brlLogistic
      positivity
    · unfold brlLogistic
      rw [div_le_one (by linarith)]
      linarith

/-- C9 counterexample: clearness indices with NaN at hours 11 and 13 and the
finite value 0.5 at hour 12 (sunrise hour 5, sunset hour 20).  The ψ fallback
returns the NaN neighbour, so the hour-12 diffuse fraction is NaN even though
the hour-12 clearness index is finite — refuting the claimed "NaN if and only
if the hour's clearness index is NaN". -/
theorem C9_nan_neighbours_counterexample :
    (dailyDiffuse (fun _ => 1) (fun _ => 0) 0 ksIsolated (some 5) (some 20)
      defaultParams).getD 12 FV.nan = FV.nan ∧
    ksIsolated.getD 12 FV.nan = FV.fin 0.5 ∧ FV.fin 0.5 ≠ FV.nan :=
  ⟨by with_unfolding_all rfl, by with_unfolding_all rfl, by intro h; cases h⟩

/-- A day of 24 identical finite clearness indices (0.3), used as the C9
witness input. -/
def ksConst : List FV := List.replicate 24 (FV.fin 0.3)

/-- C9 witness: the NaN/logistic theorem applied at hour 12 of a day of
constant clearness index 0.3 with the trivial `exp = 1` oracle. -/
theorem C9_brl_nan_and_logistic_witness :
    (dailyDiffuse (fun _ => 1) (fun _ => 0) 0 ksConst (some 5) (some 20)
      defaultParams).getD 12 FV.nan
      = FV.fin (brlLogistic (fun _ => 1) defaultParams 0.3 ((fun _ : ℕ => (0 : ℚ)) 12) 0 0.3 0.3) ∧
    0 ≤ brlLogistic (fun _ => 1) defaultParams 0.3 ((fun _ : ℕ => (0 : ℚ)) 12) 0 0.3 0.3 ∧
    brlLogistic (fun _ => 1) defaultParams 0.3 ((fun _ : ℕ => (0 : ℚ)) 12) 0 0.3 0.3 ≤ 1 :=
  (C9_brl_nan_and_logistic (fun _ => 1) (fun _ => 0) 0 ksConst (some 5) (some 20)
    12 (by norm_num) (fun _ => by norm_num)).2 0.3 0.3 0.3
    (by with_unfolding_all rfl) (by with_unfolding_all rfl)
    (by with_unfolding_all rfl)

theorem isFinB_iff (x : FV) : isFinB x = true ↔ ∃ q, x = FV.fin q := by
  cases x <;> simp [isFinB]

theorem ffillna_eq_fin (z : ℚ) (x : FV) : ∃ r, ffillna z x = FV.fin r := by
  cases x <;> exact ⟨_, rfl⟩

theorem isFinB_clip_fillna (lo z : ℚ) (x : FV) :
    isFinB (fclipLower lo (ffillna z x)) = true := by
  cases x <;> simp [ffillna, fclipLower, isFinB]

theorem isFinB_planeDirectElem (O : TrigOracle) (d : FV) (g : PanelGeom) :
    isFinB (planeDirectElem O d g) = true :=
  isFinB_clip_fillna 0 0 _

theorem isFinB_planeDiffuseElem (O : TrigOracle) (d f : FV) (albedo : ℚ)
    (g : PanelGeom) : isFinB (planeDiffuseElem O d f albedo g) = true :=
  isFinB_fillna 0 _

theorem isFinB_fadd (a b : FV) (ha : isFinB a = true) (hb : isFinB b = true) :
    isFinB (fadd a b) = true := by
  cases a <;> cases b <;> simp_all [fadd, isFinB]

theorem huldRelEffRaw_nan (k : HuldK) (T : FV) :
    huldRelEffRaw k FV.nan T = FV.nan := by
  cases T <;> rfl

theorem huldRelEff_spec (O : TrigOracle) (k : HuldK) (q : ℚ) (t : FV)
    (hlog : ∀ x, x ≤ 0 → O.log x = FV.nan) :
    ∃ e, huldRelEff O k (FV.fin q) t = FV.fin e ∧ 0 ≤ e ∧ (q ≤ 0 → e = 0) := by
  unfold huldRelEff
  by_cases hq : q ≤ 0
  · have hG : fdiv (FV.fin q) (FV.fin 1000) = FV.fin (q / 1000) :=
      fdiv_fin_fin _ _ (by norm_num)
    have hlq : q / 1000 ≤ 0 := div_nonpos_of_nonpos_of_nonneg hq (by norm_num)
    rw [hG]
    show ∃ e, fclipLower 0 (ffillna 0 (huldRelEffRaw k (O.log (q / 1000)) _)) = FV.fin e ∧ _
    rw [hlog _ hlq, huldRelEffRaw_nan]
    exact ⟨0, by simp [ffillna, fclipLower], le_refl 0, fun _ => rfl⟩
  · obtain ⟨r, hr⟩ := ffillna_eq_fin 0 (huldRelEffRaw k
      (FV.bind O.log (fdiv (FV.fin q) (FV.fin 1000)))
      (fsub (fadd (fmul (FV.fin 1) t) (fmul (FV.fin 0.035) (FV.fin q))) (FV.fin 25)))
    rw [hr]
    exact ⟨max r 0, by simp [fclipLower], le_max_right _ _, fun hq2 => absurd hq2 hq⟩

theorem powerElem_nonneg (O : TrigOracle) (k : HuldK) (capacity : ℚ) (x t : FV)
    (hcap : 0 ≤ capacity) (hlog : ∀ v, v ≤ 0 → O.log v = FV.nan)
    (hx : isFinB x = true) :
    fvNonnegB (powerElem O k capacity x t) = true := by
  obtain ⟨q, rfl⟩ := (isFinB_iff x).mp hx
  obtain ⟨e, he, he0, hez⟩ := huldRelEff_spec O k q t hlog
  unfold powerElem
  rw [he]
  simp only [fmul, fvNonnegB, decide_eq_true_eq]
  by_cases hq : q ≤ 0
  · rw [hez hq]
    simp
  · have hq0 : 0 ≤ q := le_of_lt (lt_of_not_le hq)
    have ha : 0 ≤ capacity * (0.001 / 0.1) := by positivity
    have h01 : (0 : ℚ) ≤ 0.1 := by norm_num
    exact mul_nonneg (mul_nonneg (mul_nonneg hq0 ha) he0) h01

theorem clipUpper_bounds (capacity : ℚ) (hcap : 0 ≤ capacity) (x : FV)
    (hx : fvNonnegB x = true) :
    (fvNonnegB (fclipUpper capacity x) && fvLeB (fclipUpper capacity x) capacity)
      = true := by
  obtain ⟨p, rfl, hp⟩ := (fvNonnegB_iff x).mp hx
  simp [fclipUpper, fvNonnegB, fvLeB, le_min hp hcap, min_le_right p capacity]

theorem inverterEff_fin (z : ℚ) (hz : z ≠ 0) :
    inverterEff (FV.fin z)
      = FV.fin ((1 / 0.9637) * ((-0.0162) * z - 0.0059 / z + 0.9858)) := by
  unfold inverterEff
  rw [show fmul (FV.fin (-0.0162)) (FV.fin z) = FV.fin ((-0.0162) * z) from rfl]
  rw [fdiv_fin_fin _ _ hz]
  rfl

theorem acOutput_clip_spec (invC capacity : ℚ) (d : ℚ) (hcap : 0 ≤ capacity)
    (hd0 : 0 ≤ d) :
    ∃ m, fclipLower 0 (acOutput invC (FV.fin d)) = FV.fin m ∧ 0 ≤ m ∧
      (invC ≤ capacity → m ≤ capacity) := by
  by_cases hd : d = 0
  · subst hd
    rw [acOutput, if_pos rfl]
    exact ⟨0, by simp [fclipLower], le_refl 0, fun _ => hcap⟩
  · rw [acOutput, if_neg (by simpa using hd)]
    by_cases hinv : invC = 0
    · subst hinv
      have hz : fdiv (FV.fin d) (FV.fin 0) = FV.nan := by simp [fdiv]
      rw [hz]
      have heff : inverterEff FV.nan = FV.nan := rfl
      rw [heff]
      have hmul : fmul (FV.fin d) FV.nan = FV.nan := rfl
      rw [hmul]
      have hmin : pymin (FV.fin 0) FV.nan = FV.fin 0 := rfl
      rw [hmin]
      exact ⟨0, by simp [fclipLower], le_refl 0, fun _ => hcap⟩
    · have hz : fdiv (FV.fin d) (FV.fin invC) = FV.fin (d / invC) :=
        fdiv_fin_fin _ _ hinv
      have hdz : d / invC ≠ 0 := div_ne_zero hd hinv
      rw [hz, inverterEff_fin _ hdz]
      rw [show fmul (FV.fin d) (FV.fin ((1 / 0.9637) * ((-0.0162) * (d / invC)
        - 0.0059 / (d / invC) + 0.9858)))
        = FV.fin (d * ((1 / 0.9637) * ((-0.0162) * (d / invC)
          - 0.0059 / (d / invC) + 0.9858))) from rfl]
      set v := d * ((1 / 0.9637) * ((-0.0162) * (d / invC)
        - 0.0059 / (d / invC) + 0.9858)) with hv
      have hpm : pymin (FV.fin invC) (FV.fin v)
          = if v < invC then FV.fin v else FV.fin invC := rfl
      rw [hpm]
      by_cases hlt : v < invC
      · rw [if_pos hlt]
        refine ⟨max v 0, by simp [fclipLower], le_max_right _ _, fun hc => ?_⟩
        exact max_le (le_trans (le_of_lt hlt) hc) hcap
      · rw [if_neg hlt]
        refine ⟨max invC 0, by simp [fclipLower], le_max_right _ _, fun hc => ?_⟩
        exact max_le hc hcap

theorem finalElem_spec (useInverter : Bool) (invC systemLoss capacity : ℚ)
    (x : FV) (hcap : 0 ≤ capacity) (hsl0 : 0 ≤ systemLoss) (hsl1 : systemLoss ≤ 1)
    (hx : (fvNonnegB x && fvLeB x capacity) = true) :
    fvNonnegB (finalElem useInverter invC systemLoss x) = true ∧
    ((useInverter = false ∨ invC ≤ capacity) →
      fvLeB (finalElem useInverter invC systemLoss x) capacity = true) := by
  rw [Bool.and_eq_true] at hx
  obtain ⟨d, rfl, hd0⟩ := (fvNonnegB_iff x).mp hx.1
  have hdc : d ≤ capacity := by
    have := hx.2
    simpa [fvLeB] using this
  have h1sl0 : 0 ≤ 1 - systemLoss := by linarith
  have h1sl1 : 1 - systemLoss ≤ 1 := by linarith
  cases useInverter with
  | false =>
    unfold finalElem
    simp only [Bool.false_eq_true, if_false, fmul, fvNonnegB, fvLeB,
      decide_eq_true_eq]
    refine ⟨mul_nonneg hd0 h1sl0, fun _ => ?_⟩
    calc d * (1 - systemLoss) ≤ d * 1 := mul_le_mul_of_nonneg_left h1sl1 hd0
      _ = d := mul_one d
      _ ≤ capacity := hdc
  | true =>
    obtain ⟨m, hm, hm0, hmc⟩ := acOutput_clip_spec invC capacity d hcap hd0
    unfold finalElem
    rw [if_pos rfl, hm]
    simp only [fmul, fvNonnegB, fvLeB, decide_eq_true_eq]
    refine ⟨mul_nonneg hm0 h1sl0, fun hInv => ?_⟩
    have hmcap : m ≤ capacity := by
      rcases hInv with hInv | hInv
      · exact absurd hInv (by simp)
      · exact hmc hInv
    calc m * (1 - systemLoss) ≤ m * 1 := mul_le_mul_of_nonneg_left h1sl1 hm0
      _ = m := mul_one m
      _ ≤ capacity := hmcap

theorem runModelPost_bounds (O : TrigOracle) (k : HuldK) (capacity : ℚ)
    (tamb : List FV) (hasTemp : Bool) (invC systemLoss : ℚ) (useInverter : Bool)
    (pd pf : List FV) (hcap : 0 ≤ capacity) (hsl0 : 0 ≤ systemLoss)
    (hsl1 : systemLoss ≤ 1) (hlog : ∀ v, v ≤ 0 → O.log v = FV.nan)
    (hpd : pd.all isFinB = true) (hpf : pf.all isFinB = true) :
    (runModelPost O k capacity tamb hasTemp invC systemLoss useInverter pd pf).all
      fvNonnegB = true ∧
    ((useInverter = false ∨ invC ≤ capacity) →
      (runModelPost O k capacity tamb hasTemp invC systemLoss useInverter pd pf).all
        (fun x => fvLeB x capacity) = true) := by
  unfold runModelPost
  have hirr : (List.zipWith fadd pd pf).all isFinB = true :=
    all_zipWith_both (fun a b ha hb => isFinB_fadd a b ha hb) pd pf hpd hpf
  have hpow : (List.zipWith (powerElem O k capacity) (List.zipWith fadd pd pf)
      (if hasTemp then tamb
       else List.replicate (List.zipWith fadd pd pf).length (FV.fin 20))).all
      fvNonnegB = true :=
    all_zipWith_left (fun a b ha => powerElem_nonneg O k capacity a b hcap hlog ha)
      _ _ hirr
  have hdc : ((List.zipWith (powerElem O k capacity) (List.zipWith fadd pd pf)
      (if hasTemp then tamb
       else List.replicate (List.zipWith fadd pd pf).length (FV.fin 20))).map
      (fclipUpper capacity)).all
      (fun x => fvNonnegB x && fvLeB x capacity) = true :=
    all_map_of_all (fun a ha => clipUpper_bounds capacity hcap a ha) _ hpow
  constructor
  · exact all_map_of_all
      (fun a ha => (finalElem_spec useInverter invC systemLoss capacity a hcap
        hsl0 hsl1 ha).1) _ hdc
  · intro hInv
    exact all_map_of_all
      (fun a ha => (finalElem_spec useInverter invC systemLoss capacity a hcap
        hsl0 hsl1 ha).2 hInv) _ hdc

/-- C8 (amended): every value of the series returned by `run_model` is finite
and non-negative; and it is bounded by the installed DC `capacity` whenever
the inverter stage is disabled or the inverter AC capacity (which defaults to
`capacity`) does not exceed the DC capacity.  (With an oversized explicit
`inverter_capacity` the output can slightly exceed `capacity`, because the
inverter efficiency curve exceeds 1 near its optimum — see the
counterexample.) -/
theorem C8_output_bounds (O : TrigOracle) (gh dfr tamb : List FV)
    (hasTemp : Bool) (lat tiltDeg azimDeg : ℚ) (tracking : ℤ) (capacity : ℚ)
    (invCap : Option ℚ) (useInverter : Bool) (technology : String)
    (systemLoss : ℚ) (cumulative : Bool) (angles : List AngleRec) (out : List FV)
    (hcap : 0 ≤ capacity) (hsl0 : 0 ≤ systemLoss) (hsl1 : systemLoss ≤ 1)
    (hlog : ∀ v, v ≤ 0 → O.log v = FV.nan)
    (h : runModel O gh dfr tamb hasTemp lat tiltDeg azimDeg tracking capacity
      invCap useInverter technology systemLoss cumulative angles = Except.ok out) :
    out.all fvNonnegB = true ∧
    ((useInverter = false ∨ invCap.getD capacity ≤ capacity) →
      out.all (fun x => fvLeB x capacity) = true) := by
  have hcond : ¬ (systemLoss < 0 ∨ 1 < systemLoss) := by
    push_neg
    exact ⟨hsl0, hsl1⟩
  unfold runModel at h
  rw [if_neg hcond] at h
  cases hk : panelTypes technology with
  | none =>
    rw [hk] at h
    exact absurd h (by simp)
  | some k =>
    rw [hk] at h
    cases ha : apertureIrradiance O
        (List.zipWith (fun g d => fmul g (fsub (FV.fin 1) d)) gh dfr)
        (List.zipWith fmul gh dfr) lat (radiansQ O tiltDeg) (radiansQ O azimDeg)
        tracking 0.3 false cumulative angles with
    | error e =>
      rw [ha] at h
      exact absurd h (by simp)
    | ok ap =>
      cases ap with
      | dniSeries l =>
        rw [ha] at h
        simp only [Except.ok.injEq] at h
        subst h
        simp
      | planes pd pf =>
        rw [ha] at h
        simp only [Except.ok.injEq] at h
        subst h
        obtain ⟨-, hdir, hdif⟩ := apertureIrradiance_planes_inv ha
        have hpd : pd.all isFinB = true := by
          rw [hdir]
          exact all_zipWith_const (fun a b => isFinB_planeDirectElem O a b) _ _
        have hpf : pf.all isFinB = true := by
          rw [hdif]
          exact all_zipWith_const
            (fun (a : FV × FV) (b : PanelGeom) =>
              isFinB_planeDiffuseElem O a.1 a.2 0.3 b) _ _
        exact runModelPost_bounds O k capacity tamb hasTemp (invCap.getD capacity)
          systemLoss useInverter pd pf hcap hsl0 hsl1 hlog hpd hpf

/-- C8 counterexample: a valid configuration (capacity 1000 W, explicit
inverter capacity 5000/3 W, system loss 0, clear-sky input of 2000 W/m² with
diffuse fraction 0, sun at zenith) for which `run_model` returns
28987400/28911 ≈ 1002.6 W — strictly above the installed capacity of 1000 W,
because the PVWatts inverter efficiency curve exceeds 1 at loading ratio 0.6.
This refutes the claim that the output never exceeds the installed
capacity. -/
theorem C8_exceeds_capacity_counterexample :
    runModel oFlat [FV.fin 2000] [FV.fin 0] [] false 0 0 0 0 1000
      (some (5000 / 3)) true "csi" 0 false [angleRow0]
      = Except.ok [FV.fin (28987400 / 28911)] ∧
    (1000 : ℚ) < 28987400 / 28911 :=
  ⟨by with_unfolding_all rfl, by norm_num⟩

/-- C8 witness: the bounds theorem applied to the same concrete run but with
the default inverter capacity (equal to the DC capacity), where the output is
exactly 1000 W, within `[0, capacity]`. -/
theorem C8_output_bounds_witness :
    ([FV.fin 1000] : List FV).all fvNonnegB = true ∧
    ([FV.fin 1000] : List FV).all (fun x => fvLeB x 1000) = true := by
  have h : runModel oFlat [FV.fin 2000] [FV.fin 0] [] false 0 0 0 0 1000 none
      true "csi" 0 false [angleRow0] = Except.ok [FV.fin 1000] := by
    with_unfolding_all rfl
  have r := C8_output_bounds oFlat [FV.fin 2000] [FV.fin 0] [] false 0 0 0 0 1000
    none true "csi" 0 false [angleRow0] [FV.fin 1000] (by norm_num) (by norm_num)
    (by norm_num)
    (fun v hv => by
      show (if v ≤ 0 then FV.nan else FV.fin 0) = FV.nan
      rw [if_pos hv]) h
  exact ⟨r.1, r.2 (Or.inr (by norm_num))⟩
